import Mathlib

/-!
Verification of the car-auction backend: shallow embedding of the bid
acceptance pipeline (`BidService.placeBid`), the auction lifecycle
(`AuctionService.createAuction` / `endAuction`), the gateway bid handler
(`AuctionGateway.handlePlaceBid` / `handleAuctionEnd`), and the Redis
fixed-window rate limiter (`RedisService.checkRateLimit`).

Amounts are modelled as rationals (the store column is a decimal/double
used only through order comparisons), instants as natural-number
timestamps.
-/

namespace CarAuction

/-- The AuctionStatus enum from the Prisma schema: ACTIVE, ENDED, CANCELLED. -/
inductive AuctionStatus where
  | ACTIVE
  | ENDED
  | CANCELLED
deriving DecidableEq, Repr

/-- A row of the `auctions` table (fields the bid pipeline reads/writes). -/
structure Auction where
  id : String
  status : AuctionStatus
  startTime : Nat
  endTime : Nat
  startingBid : ℚ
  currentHighestBid : ℚ
  winnerId : Option String
deriving DecidableEq, Repr

/-- A row of the `bids` table. -/
structure Bid where
  userId : String
  auctionId : String
  amount : ℚ
  timestamp : Nat
deriving DecidableEq, Repr

/-- The durable store: the `auctions` and `bids` tables.  New bids are
consed at the front, so `bids` is newest-first. -/
structure Store where
  auctions : List Auction
  bids : List Bid
deriving DecidableEq, Repr

/-- Errors thrown by `BidService.placeBid` (`Invalid bid amount provided`,
`Auction not found`, `Auction is not active`, `Bid must be higher than …`,
`Auction has ended`, `You cannot bid against yourself`). -/
inductive BidError where
  | invalidAmount
  | auctionNotFound
  | auctionNotActive
  | bidTooLow
  | auctionEnded
  | selfOutbid
deriving DecidableEq, Repr

/-- Auction lookup, `tx.auction.findUnique` by primary key. -/
def findAuction (st : Store) (aid : String) : Option Auction :=
  st.auctions.find? (fun a => a.id == aid)

/-- The bids of one auction, filtered by auctionId. -/
def bidsOf (st : Store) (aid : String) : List Bid :=
  st.bids.filter (fun b => b.auctionId == aid)

/-- Self-outbid probe: `tx.bid.findFirst` on the auction, the caller, and
an amount equal to the current highest bid. -/
def selfOutbidQuery (st : Store) (aid uid : String) (chb : ℚ) : Option Bid :=
  st.bids.find? (fun b =>
    b.auctionId == aid && b.userId == uid && b.amount == chb)

/-- The validation chain of `BidService.placeBid`, in source order:
amount parse/positivity check, auction lookup, status check, minimum-bid
check against `Math.max(startingBid, currentHighestBid)`, end-time check
(`new Date() > auction.endTime`), self-outbid check (`tx.bid.findFirst`
with the id of the caller and `amount = auction.currentHighestBid`). -/
def bidChecks (st : Store) (aid uid : String) (amount : ℚ) (now : Nat) :
    Except BidError Auction :=
  if amount ≤ 0 then .error .invalidAmount
  else
    match findAuction st aid with
    | none => .error .auctionNotFound
    | some auction =>
      if auction.status ≠ .ACTIVE then .error .auctionNotActive
      else if amount ≤ max auction.startingBid auction.currentHighestBid then
        .error .bidTooLow
      else if auction.endTime < now then .error .auctionEnded
      else if (selfOutbidQuery st aid uid auction.currentHighestBid).isSome then
        .error .selfOutbid
      else .ok auction

/-- Observable operations issued by the transaction body of `placeBid`, in
program order.  `commit` marks the point where `prisma.$transaction`
commits (after the callback returns); each fallible side effect records
whether it succeeded (`true`) or failed and was merely logged
(`false`). -/
inductive Effect where
  | bidInsert
  | highestUpdate
  | cacheWrite (ok : Bool)
  | historyAppend (ok : Bool)
  | busPublish (ok : Bool)
  | pubsubPublish (ok : Bool)
  | commit
deriving DecidableEq, Repr

/-- Model of `BidService.placeBid` with fault injection for its side effects.
All of `redis.cacheHighestBid`, `redis.addToBidHistory`,
`rabbitmq.publishBidEvent` and `redis.publishBidUpdate` are awaited
*inside* the `prisma.$transaction` callback, before the transaction
commits.  Each of the four services absorbs its own failures: the
enhanced RedisService null-guards its client and wraps `cacheHighestBid`,
`addToBidHistory` and `publishBidUpdate` in try/catch blocks that log and
return, and `RabbitmqService.publishBidEvent` does the same, so none of
them can throw into the callback.  A raised failure flag therefore only
marks the corresponding effect as failed in the returned trace; the
store, the outcome, and the remaining effects are untouched. -/
def placeBidFx (st : Store) (aid uid : String) (amount : ℚ) (now : Nat)
    (failCache failHistory failBus failPub : Bool) :
    Store × Except BidError Bid × List Effect :=
  match bidChecks st aid uid amount now with
  | .error e => (st, .error e, [])
  | .ok _ =>
    let bid : Bid := ⟨uid, aid, amount, now⟩
    let st' : Store :=
      { auctions := st.auctions.map (fun a =>
          if a.id == aid then { a with currentHighestBid := amount } else a),
        bids := bid :: st.bids }
    (st', .ok bid,
      [.bidInsert, .highestUpdate, .cacheWrite (!failCache),
       .historyAppend (!failHistory), .busPublish (!failBus),
       .pubsubPublish (!failPub), .commit])

/-- Model of `BidService.placeBid` on the happy infrastructure path (no
side-effect failures): the store after the call and the result. -/
def placeBid (st : Store) (aid uid : String) (amount : ℚ) (now : Nat) :
    Store × Except BidError Bid :=
  let r := placeBidFx st aid uid amount now false false false false
  (r.1, r.2.1)

/-- Insert a bid into an amount-descending list, keeping it descending. -/
def insertByAmountDesc (b : Bid) : List Bid → List Bid
  | [] => [b]
  | c :: rest =>
    if c.amount < b.amount then b :: c :: rest else c :: insertByAmountDesc b rest

/-- Prisma orderBy amount descending on a bid list (insertion sort). -/
def orderByAmountDesc : List Bid → List Bid
  | [] => []
  | b :: rest => insertByAmountDesc b (orderByAmountDesc rest)

/-- Deduplication keeping first occurrences (the new-Set spread idiom). -/
def dedupFirst (l : List String) : List String :=
  l.foldl (fun acc x => if x ∈ acc then acc else acc ++ [x]) []

/-- Notification / audit messages emitted by `AuctionService.endAuction`
through RabbitMQ: `AUCTION_WON`, `AUCTION_LOST`, `AUCTION_ENDED_NO_BIDS`
and the `AUCTION_ENDED` audit log. -/
inductive NEvent where
  | won (userId : String)
  | lost (userId : String)
  | endedNoBids
  | auditEnded (winnerId : Option String)
deriving DecidableEq, Repr

/-- Model of `AuctionService.endAuction` (auction.service.ts of the current
backend): re-read the auction with its bids ordered by amount
descending; throw if absent; if already `ENDED` return the current state
with no write and no events; otherwise set `status := ENDED` and
`winnerId := winningBid?.userId ?? null` where the winning bid is the
head of the amount-descending bid list, then emit the winner/loser (or
no-bids) notifications followed by the `AUCTION_ENDED` audit log. -/
def endAuction (st : Store) (aid : String) :
    Except BidError (Store × Auction × List NEvent) :=
  match findAuction st aid with
  | none => .error .auctionNotFound
  | some auction =>
    if auction.status = .ENDED then .ok (st, auction, [])
    else
      let sorted := orderByAmountDesc (bidsOf st aid)
      let winningBid := sorted.head?
      let winner := winningBid.map (·.userId)
      let participants := dedupFirst (sorted.map (·.userId))
      let st' : Store :=
        { st with auctions := st.auctions.map (fun a =>
            if a.id == aid then { a with status := .ENDED, winnerId := winner }
            else a) }
      let events :=
        (match winningBid with
         | some wb =>
           .won wb.userId ::
             (participants.filter (fun p => p ≠ wb.userId)).map (.lost ·)
         | none => [.endedNoBids]) ++ [.auditEnded winner]
      .ok (st', { auction with status := .ENDED, winnerId := winner }, events)

/-! ### Rate limiter (`RedisService.checkRateLimit`) -/

/-- The Redis value behind `rate_limit:{identifier}`: the counter and
the absolute second at which the key expires. -/
structure RateEntry where
  count : Nat
  expiresAt : Nat
deriving DecidableEq, Repr

/-- One call to `RedisService.checkRateLimit(identifier, limit, window)`:
`INCR` the key (a fresh key — absent or expired — restarts at 1), set
the expiry to `window` when the incremented value is 1, extend it to
`5 * window` when the value exceeds `2 * limit`, and admit the request
iff the value is at most `limit`. -/
def checkRateLimitStep (s : Option RateEntry) (now limit window : Nat) :
    Bool × RateEntry :=
  let current : Nat :=
    match s with
    | some e => if now < e.expiresAt then e.count + 1 else 1
    | none => 1
  let expiresAt : Nat :=
    match s with
    | some e => if now < e.expiresAt then e.expiresAt else now + window
    | none => now + window
  let expiresAt := if current = 1 then now + window else expiresAt
  let expiresAt := if limit * 2 < current then now + 5 * window else expiresAt
  (decide (current ≤ limit), ⟨current, expiresAt⟩)

/-- Run a sequence of `placeBid` requests (given by their arrival times,
in seconds) against one `rate_limit:bid:{userId}:{auctionId}` key with
the gateway parameters `limit = 5`, `window = 30`; return the arrival
times of the requests admitted past the rate gate. -/
def runRL : Option RateEntry → List Nat → List Nat
  | _, [] => []
  | s, t :: ts =>
    let r := checkRateLimitStep s t 5 30
    if r.1 then t :: runRL (some r.2) ts else runRL (some r.2) ts

/-- Run of the rate gate where each request also carries whether the
rate-limit store was reachable.  An unreachable store fails open (the
enhanced RedisService returns true when its client is missing or the
INCR fails): the request is admitted and the counter is not touched. -/
def runRLAvail : Option RateEntry → List (Nat × Bool) → List Nat
  | _, [] => []
  | s, (t, avail) :: ts =>
    if avail then
      if (checkRateLimitStep s t 5 30).1 then
        t :: runRLAvail (some (checkRateLimitStep s t 5 30).2) ts
      else runRLAvail (some (checkRateLimitStep s t 5 30).2) ts
    else t :: runRLAvail s ts

/-! ### Gateway (`AuctionGateway`) -/

/-- The authenticated user attached to a socket (`client.user`). -/
structure GwUser where
  id : String
  username : String
  email : String
deriving DecidableEq, Repr

/-- Outcome of the gateway placeBid handler up to the hand-off to
`BidService.placeBid`. -/
inductive GwBidOutcome where
  | authRequired
  | rateLimited
  | invalidAmount
  | forwarded (amount : ℚ)
deriving DecidableEq, Repr

/-- Model of `AuctionGateway.handlePlaceBid`, faithfully ordered:
authentication guard, then the rate gate (`redis.checkRateLimit` with the
per-user-per-auction key, limit 5, window 30, which increments the
counter), and only then amount normalization (`parseFloat`; rejected when
`NaN` — modelled as `none` — or `≤ 0`).  Returns the outcome and the new
state of the rate-limit key. -/
def gwHandlePlaceBid (user : Option GwUser) (rl : Option RateEntry)
    (now : Nat) (amount : Option ℚ) : GwBidOutcome × Option RateEntry :=
  match user with
  | none => (.authRequired, rl)
  | some _ =>
    if (checkRateLimitStep rl now 5 30).1 = false then
      (.rateLimited, some (checkRateLimitStep rl now 5 30).2)
    else
      match amount with
      | none => (.invalidAmount, some (checkRateLimitStep rl now 5 30).2)
      | some amt =>
        if amt ≤ 0 then (.invalidAmount, some (checkRateLimitStep rl now 5 30).2)
        else (.forwarded amt, some (checkRateLimitStep rl now 5 30).2)

/-- The client-supplied payload of an `auctionEnd` socket message. -/
structure EndMsg where
  auctionId : String
  winnerId : String
  winningBid : ℚ
deriving DecidableEq, Repr

/-- The broadcast the gateway emits to room `auction-{auctionId}`. -/
structure EndBroadcast where
  auctionId : String
  winnerId : String
  winningBid : ℚ
deriving DecidableEq, Repr

/-- Model of `AuctionGateway.handleAuctionEnd`: re-broadcasts the client-supplied
`winnerId` and `winningBid` to the auction room.  The handler has no
authentication guard and performs no store read or write, which the
signature makes explicit: the store passes through and the broadcast is
built from the message alone. -/
def handleAuctionEnd (st : Store) (user : Option GwUser) (data : EndMsg) :
    Store × EndBroadcast :=
  (st, ⟨data.auctionId, data.winnerId, data.winningBid⟩)

/-! ### Operations and reachable stores -/

/-- The store-level operations of the backend: `createAuction` (inserts
with `currentHighestBid := startingBid`, status ACTIVE), a successful
`placeBid`, and `endAuction` (reached from the scheduler sweep, the read
paths, or the explicit end endpoint). -/
inductive Op where
  | create (id : String) (startTime endTime : Nat) (startingBid : ℚ)
  | placeBid (aid uid : String) (amount : ℚ) (now : Nat)
  | endAuction (aid : String)

/-- The auction record `AuctionService.createAuction` inserts. -/
def newAuction (id : String) (startTime endTime : Nat) (startingBid : ℚ) :
    Auction :=
  ⟨id, .ACTIVE, startTime, endTime, startingBid, startingBid, none⟩

/-- One state transition of the durable store.  `t` is the server clock
before the step, `t'` after; bid timestamps are assigned from the clock,
which never runs backwards.  `create` requires the generated primary key
to be fresh; rejected `placeBid` calls change nothing (proved separately)
and need no step. -/
inductive Steps : Op → Store → Nat → Store → Nat → Prop where
  | create {st : Store} {t : Nat} {id : String} {st0 en : Nat} {sb : ℚ}
      (fresh : ∀ a ∈ st.auctions, a.id ≠ id) :
      Steps (.create id st0 en sb) st t
        ⟨newAuction id st0 en sb :: st.auctions, st.bids⟩ t
  | placeBid {st st' : Store} {t now : Nat} {aid uid : String} {amt : ℚ}
      {bid : Bid} (hle : t ≤ now)
      (h : placeBid st aid uid amt now = (st', .ok bid)) :
      Steps (.placeBid aid uid amt now) st t st' now
  | endAuction {st st' : Store} {t : Nat} {aid : String} {a : Auction}
      {evs : List NEvent} (h : endAuction st aid = .ok (st', a, evs)) :
      Steps (.endAuction aid) st t st' t

/-- Stores reachable from the empty database by the backend operations. -/
inductive Reachable : Store → Nat → Prop where
  | init (t : Nat) : Reachable ⟨[], []⟩ t
  | step {st : Store} {t : Nat} {op : Op} {st' : Store} {t' : Nat}
      (hr : Reachable st t) (hs : Steps op st t st' t') : Reachable st' t'

def Inv (st : Store) (t : Nat) : Prop :=
  (st.auctions.map (·.id)).Nodup ∧
  (∀ a ∈ st.auctions, a.startingBid ≤ a.currentHighestBid) ∧
  (∀ a ∈ st.auctions, ∀ b ∈ st.bids, b.auctionId = a.id →
    b.amount ≤ a.currentHighestBid) ∧
  (∀ b ∈ st.bids, b.timestamp ≤ t) ∧
  (∀ b ∈ st.bids, ∃ a ∈ st.auctions, b.auctionId = a.id) ∧
  st.bids.Pairwise (fun bn bo => bn.auctionId = bo.auctionId →
    bo.amount < bn.amount ∧ bo.timestamp ≤ bn.timestamp) ∧
  (∀ a ∈ st.auctions, a.status = .ENDED →
    a.winnerId = ((orderByAmountDesc (bidsOf st a.id)).head?).map (·.userId))

/-- Admitted-request traces that split into groups of at most five
requests, each group inside a 30-second interval, with successive
interval starts at least 30 seconds apart and at least `lo`. -/
inductive Sp : Nat → List Nat → Prop where
  | nil (lo : Nat) : Sp lo []
  | grp (lo w : Nat) (g rest : List Nat) (hlow : lo ≤ w)
      (hlen : g.length ≤ 5) (hg : ∀ x ∈ g, w ≤ x ∧ x < w + 30)
      (hrest : Sp (w + 30) rest) : Sp lo (g ++ rest)

def demoAuction : Auction := ⟨"A1", .ACTIVE, 0, 100, 100, 100, none⟩

def demoStore : Store := ⟨[demoAuction], []⟩

def demoUser : GwUser := ⟨"U1", "u1", "u1@example.com"⟩

def chainStore1 : Store := ⟨[newAuction "A1" 0 100 100], []⟩

def chainBid : Bid := ⟨"U1", "A1", 150, 50⟩

def chainAuction2 : Auction := ⟨"A1", .ACTIVE, 0, 100, 100, 150, none⟩

def chainStore2 : Store := ⟨[chainAuction2], [chainBid]⟩

def chainAuction3 : Auction := ⟨"A1", .ENDED, 0, 100, 100, 150, some "U1"⟩

def chainStore3 : Store := ⟨[chainAuction3], [chainBid]⟩

def cancelledAuction : Auction := ⟨"A2", .CANCELLED, 0, 100, 100, 100, none⟩

def cancelledStore : Store := ⟨[cancelledAuction], []⟩

def cancelledStoreAfter : Store := ⟨[⟨"A2", .ENDED, 0, 100, 100, 100, none⟩], []⟩

def mixedStore : Store :=
  ⟨[⟨"A9", .ENDED, 0, 10, 5, 5, none⟩, cancelledAuction], []⟩

def mixedStoreAfter : Store :=
  ⟨[⟨"A9", .ENDED, 0, 10, 5, 5, none⟩, ⟨"A2", .ENDED, 0, 100, 100, 100, none⟩],
   []⟩

theorem bidChecks_ok_iff {st : Store} {aid uid : String} {amt : ℚ} {now : Nat}
    {a : Auction} :
    bidChecks st aid uid amt now = .ok a ↔
      findAuction st aid = some a ∧ 0 < amt ∧ a.status = .ACTIVE ∧
        max a.startingBid a.currentHighestBid < amt ∧ now ≤ a.endTime ∧
        selfOutbidQuery st aid uid a.currentHighestBid = none := by
  unfold bidChecks
  by_cases h0 : amt ≤ 0
  · constructor
    · intro h; simp [h0] at h
    · rintro ⟨-, h1, -⟩; exact absurd h1 (not_lt.mpr h0)
  · cases hfa : findAuction st aid with
    | none =>
      simp [h0, hfa]
    | some b =>
      simp only [h0, if_false, hfa]
      by_cases hst : b.status ≠ AuctionStatus.ACTIVE
      · constructor
        · intro h; simp [hst] at h
        · rintro ⟨hb, -, h2, -⟩; cases hb; exact absurd h2 hst
      · push_neg at hst
        by_cases hmin : amt ≤ max b.startingBid b.currentHighestBid
        · constructor
          · intro h; simp [hst, hmin] at h
          · rintro ⟨hb, -, -, h3, -⟩; cases hb; exact absurd h3 (not_lt.mpr hmin)
        · by_cases hend : b.endTime < now
          · constructor
            · intro h; simp [hst, hmin, hend] at h
            · rintro ⟨hb, -, -, -, h4, -⟩; cases hb; exact absurd hend (not_lt.mpr h4)
          · by_cases hso : (selfOutbidQuery st aid uid b.currentHighestBid).isSome
            · constructor
              · intro h; simp [hst, hmin, hend, hso] at h
              · rintro ⟨hb, -, -, -, -, h5⟩; cases hb
                rw [h5] at hso; simp at hso
            · constructor
              · intro h
                simp only [hst, hmin, hend, hso] at h
                simp at h
                cases h
                refine ⟨rfl, not_le.mp h0, hst, not_le.mp hmin, not_lt.mp hend, ?_⟩
                simpa [Option.isNone_iff_eq_none] using hso
              · rintro ⟨hb, -, -, -, -, -⟩; cases hb
                simp [hst, hmin, hend, hso]

theorem placeBidFx_of_checks_error {st : Store} {aid uid : String} {amt : ℚ}
    {now : Nat} {e : BidError} (f1 f2 f3 f4 : Bool)
    (h : bidChecks st aid uid amt now = .error e) :
    placeBidFx st aid uid amt now f1 f2 f3 f4 = (st, .error e, []) := by
  unfold placeBidFx; rw [h]

theorem placeBidFx_of_checks_ok {st : Store} {aid uid : String} {amt : ℚ}
    {now : Nat} {a : Auction} (f1 f2 f3 f4 : Bool)
    (h : bidChecks st aid uid amt now = .ok a) :
    placeBidFx st aid uid amt now f1 f2 f3 f4 =
      ({ auctions := st.auctions.map (fun x =>
            if x.id == aid then { x with currentHighestBid := amt } else x),
         bids := (⟨uid, aid, amt, now⟩ : Bid) :: st.bids },
       .ok ⟨uid, aid, amt, now⟩,
       [.bidInsert, .highestUpdate, .cacheWrite (!f1), .historyAppend (!f2),
        .busPublish (!f3), .pubsubPublish (!f4), .commit]) := by
  unfold placeBidFx; rw [h]

theorem placeBid_eq {st : Store} {aid uid : String} {amt : ℚ} {now : Nat} :
    placeBid st aid uid amt now =
      match bidChecks st aid uid amt now with
      | .error e => (st, .error e)
      | .ok _ =>
        ({ auctions := st.auctions.map (fun x =>
              if x.id == aid then { x with currentHighestBid := amt } else x),
           bids := (⟨uid, aid, amt, now⟩ : Bid) :: st.bids },
         .ok ⟨uid, aid, amt, now⟩) := by
  cases h : bidChecks st aid uid amt now with
  | error e => simp [placeBid, placeBidFx_of_checks_error false false false false h]
  | ok a => simp [placeBid, placeBidFx_of_checks_ok false false false false h]

theorem placeBid_of_checks_error {st : Store} {aid uid : String} {amt : ℚ}
    {now : Nat} {e : BidError} (h : bidChecks st aid uid amt now = .error e) :
    placeBid st aid uid amt now = (st, .error e) := by
  simp [placeBid, placeBidFx_of_checks_error false false false false h]

theorem placeBid_of_checks_ok' {st : Store} {aid uid : String} {amt : ℚ}
    {now : Nat} {a : Auction} (h : bidChecks st aid uid amt now = .ok a) :
    placeBid st aid uid amt now =
      ({ auctions := st.auctions.map (fun x =>
            if x.id == aid then { x with currentHighestBid := amt } else x),
         bids := (⟨uid, aid, amt, now⟩ : Bid) :: st.bids },
       .ok ⟨uid, aid, amt, now⟩) := by
  simp [placeBid, placeBidFx_of_checks_ok false false false false h]

theorem selfOutbidQuery_eq_none_iff {st : Store} {aid uid : String} {c : ℚ} :
    selfOutbidQuery st aid uid c = none ↔
      ∀ b ∈ st.bids, ¬(b.auctionId = aid ∧ b.userId = uid ∧ b.amount = c) := by
  simp [selfOutbidQuery, List.find?_eq_none, not_and]

theorem placeBid_isOk_iff {st : Store} {aid uid : String} {amt : ℚ} {now : Nat} :
    (placeBid st aid uid amt now).2.isOk = true ↔
      ∃ a, bidChecks st aid uid amt now = .ok a := by
  rw [placeBid_eq]
  cases h : bidChecks st aid uid amt now with
  | error e =>
    simp only [Except.isOk, Except.toBool, Bool.false_eq_true, false_iff, not_exists]
    intro b hb; simp at hb
  | ok a =>
    simp only [Except.isOk, Except.toBool, true_iff]
    exact ⟨a, rfl⟩

theorem findAuction_map (st : Store) (aid : String) (f : Auction → Auction)
    (hf : ∀ a, (f a).id = a.id) (bids : List Bid) :
    findAuction ⟨st.auctions.map f, bids⟩ aid = (findAuction st aid).map f := by
  unfold findAuction
  have hp : ((fun a : Auction => a.id == aid) ∘ f) = (fun a => a.id == aid) := by
    funext a; simp [Function.comp, hf a]
  simp only [List.find?_map, hp]

/-- Claim C1 (amended): a call to placeBid is accepted iff the auction
exists, its status is ACTIVE, now ≤ endTime (the source accepts at the
boundary now = endTime), the amount is positive and strictly greater
than both startingBid and currentHighestBid, and no bid of the caller on
the auction equals currentHighestBid; on acceptance a Bid row is
inserted and currentHighestBid is set to the amount; each failed
precondition yields its error, checked in source order: InvalidAmount,
AuctionNotFound, AuctionNotActive, BidTooLow, AuctionEnded,
SelfOutbid. -/
theorem placeBid_characterization (st : Store) (aid uid : String) (amt : ℚ)
    (now : Nat) :
    ((placeBid st aid uid amt now).2.isOk = true ↔
      ∃ a, findAuction st aid = some a ∧ a.status = .ACTIVE ∧ now ≤ a.endTime ∧
        0 < amt ∧ a.startingBid < amt ∧ a.currentHighestBid < amt ∧
        ∀ b ∈ st.bids,
          ¬(b.auctionId = aid ∧ b.userId = uid ∧ b.amount = a.currentHighestBid)) ∧
    (∀ a bid, findAuction st aid = some a →
      (placeBid st aid uid amt now).2 = .ok bid →
      bid = ⟨uid, aid, amt, now⟩ ∧
      (placeBid st aid uid amt now).1.bids = bid :: st.bids ∧
      findAuction (placeBid st aid uid amt now).1 aid =
        some { a with currentHighestBid := amt }) ∧
    (amt ≤ 0 → (placeBid st aid uid amt now).2 = .error .invalidAmount) ∧
    (0 < amt → findAuction st aid = none →
      (placeBid st aid uid amt now).2 = .error .auctionNotFound) ∧
    (∀ a, 0 < amt → findAuction st aid = some a → a.status ≠ .ACTIVE →
      (placeBid st aid uid amt now).2 = .error .auctionNotActive) ∧
    (∀ a, 0 < amt → findAuction st aid = some a → a.status = .ACTIVE →
      amt ≤ max a.startingBid a.currentHighestBid →
      (placeBid st aid uid amt now).2 = .error .bidTooLow) ∧
    (∀ a, 0 < amt → findAuction st aid = some a → a.status = .ACTIVE →
      max a.startingBid a.currentHighestBid < amt → a.endTime < now →
      (placeBid st aid uid amt now).2 = .error .auctionEnded) ∧
    (∀ a, 0 < amt → findAuction st aid = some a → a.status = .ACTIVE →
      max a.startingBid a.currentHighestBid < amt → now ≤ a.endTime →
      (selfOutbidQuery st aid uid a.currentHighestBid).isSome = true →
      (placeBid st aid uid amt now).2 = .error .selfOutbid) := by
  refine ⟨?_, ?_, ?_, ?_, ?_, ?_, ?_, ?_⟩
  · rw [placeBid_isOk_iff]
    constructor
    · rintro ⟨a, ha⟩
      rw [bidChecks_ok_iff] at ha
      obtain ⟨h1, h2, h3, h4, h5, h6⟩ := ha
      exact ⟨a, h1, h3, h5, h2, (max_lt_iff.mp h4).1, (max_lt_iff.mp h4).2,
        selfOutbidQuery_eq_none_iff.mp h6⟩
    · rintro ⟨a, h1, h3, h5, h2, h4a, h4b, h6⟩
      exact ⟨a, bidChecks_ok_iff.mpr ⟨h1, h2, h3, max_lt_iff.mpr ⟨h4a, h4b⟩, h5,
        selfOutbidQuery_eq_none_iff.mpr h6⟩⟩
  · intro a bid hfa hok
    cases h : bidChecks st aid uid amt now with
    | error e => rw [placeBid_of_checks_error h] at hok; simp at hok
    | ok b =>
      rw [placeBid_of_checks_ok' h] at hok ⊢
      simp only at hok
      cases hok
      refine ⟨rfl, rfl, ?_⟩
      have hf : ∀ x : Auction,
          ((if x.id == aid then { x with currentHighestBid := amt } else x) :
            Auction).id = x.id := by
        intro x; by_cases hx : x.id == aid <;> simp [hx]
      rw [findAuction_map st aid _ hf]
      rw [hfa]
      have haid : (a.id == aid) = true :=
        @List.find?_some Auction (fun x => x.id == aid) a st.auctions hfa
      simp [haid]
      exact fun h' => absurd (by simpa using haid) h'
  · intro h0
    have : bidChecks st aid uid amt now = .error .invalidAmount := by
      unfold bidChecks; simp [h0]
    rw [placeBid_eq, this]
  · intro h0 hfa
    have : bidChecks st aid uid amt now = .error .auctionNotFound := by
      unfold bidChecks; simp [not_le.mpr h0, hfa]
    rw [placeBid_eq, this]
  · intro a h0 hfa hst
    have : bidChecks st aid uid amt now = .error .auctionNotActive := by
      unfold bidChecks; simp [not_le.mpr h0, hfa, hst]
    rw [placeBid_eq, this]
  · intro a h0 hfa hst hmin
    have : bidChecks st aid uid amt now = .error .bidTooLow := by
      unfold bidChecks; simp [not_le.mpr h0, hfa, hst, hmin]
    rw [placeBid_eq, this]
  · intro a h0 hfa hst hmin hend
    have : bidChecks st aid uid amt now = .error .auctionEnded := by
      unfold bidChecks; simp [not_le.mpr h0, hfa, hst, not_le.mpr hmin, hend]
    rw [placeBid_eq, this]
  · intro a h0 hfa hst hmin hend hso
    have : bidChecks st aid uid amt now = .error .selfOutbid := by
      unfold bidChecks
      simp [not_le.mpr h0, hfa, hst, not_le.mpr hmin, not_lt.mpr hend, hso]
    rw [placeBid_eq, this]

/-- Claim C9: every rejected placeBid — whatever the rejection reason
and whatever side-effect failures are injected — leaves the store
exactly unchanged: no bid row and no auction field is modified. -/
theorem placeBidFx_reject_frame (st : Store) (aid uid : String) (amt : ℚ)
    (now : Nat) (f1 f2 f3 f4 : Bool) (e : BidError)
    (h : (placeBidFx st aid uid amt now f1 f2 f3 f4).2.1 = .error e) :
    (placeBidFx st aid uid amt now f1 f2 f3 f4).1 = st := by
  cases hc : bidChecks st aid uid amt now with
  | error e' => rw [placeBidFx_of_checks_error f1 f2 f3 f4 hc]
  | ok a =>
    rw [placeBidFx_of_checks_ok f1 f2 f3 f4 hc] at h
    simp at h

/-- Claim C10: the auctionEnd gateway handler returns the store
untouched, broadcasts exactly the client-supplied winnerId and
winningBid, and its broadcast does not depend on the store or on the
authentication state of the sender. -/
theorem handleAuctionEnd_no_store_no_auth :
    ∀ (st st' : Store) (u u' : Option GwUser) (d : EndMsg),
      (handleAuctionEnd st u d).1 = st ∧
      (handleAuctionEnd st u d).2 = ⟨d.auctionId, d.winnerId, d.winningBid⟩ ∧
      (handleAuctionEnd st u d).2 = (handleAuctionEnd st' u' d).2 :=
  fun _ _ _ _ _ => ⟨rfl, rfl, rfl⟩

/-- Claim C7 (amended): the gateway applies the rate gate first — the
counter is incremented on every authenticated request, whatever the
amount — and only requests admitted past the gate reach the normalize
step, which rejects exactly the NaN and non-positive amounts (there is
no upper-bound check).  Consequently a request rejected at normalize has
already incremented the rate counter. -/
theorem gwHandlePlaceBid_gate_before_normalize (u : GwUser)
    (rl : Option RateEntry) (now : Nat) (amount : Option ℚ) :
    (gwHandlePlaceBid (some u) rl now amount).2 =
      some (checkRateLimitStep rl now 5 30).2 ∧
    ((checkRateLimitStep rl now 5 30).1 = false →
      (gwHandlePlaceBid (some u) rl now amount).1 = .rateLimited) ∧
    ((checkRateLimitStep rl now 5 30).1 = true →
      ((gwHandlePlaceBid (some u) rl now amount).1 = .invalidAmount ↔
        amount = none ∨ ∃ q, amount = some q ∧ q ≤ 0)) := by
  refine ⟨?_, ?_, ?_⟩
  · unfold gwHandlePlaceBid
    cases hadm : (checkRateLimitStep rl now 5 30).1 with
    | false => simp [hadm]
    | true =>
      cases amount with
      | none => simp [hadm]
      | some q => by_cases hq : q ≤ 0 <;> simp [hadm, hq]
  · intro hc; unfold gwHandlePlaceBid; simp [hc]
  · intro hc
    unfold gwHandlePlaceBid
    cases amount with
    | none => simp [hc]
    | some q => by_cases hq : q ≤ 0 <;> simp [hc, hq]

theorem endAuction_not_found {st : Store} {aid : String}
    (hfa : findAuction st aid = none) :
    endAuction st aid = .error .auctionNotFound := by
  unfold endAuction; rw [hfa]

theorem endAuction_already_ended {st : Store} {aid : String} {a : Auction}
    (hfa : findAuction st aid = some a) (h : a.status = .ENDED) :
    endAuction st aid = .ok (st, a, []) := by
  unfold endAuction; rw [hfa]; simp [h]

theorem endAuction_transition {st : Store} {aid : String} {a : Auction}
    (hfa : findAuction st aid = some a) (h : a.status ≠ .ENDED) :
    endAuction st aid =
      .ok ({ st with auctions := st.auctions.map (fun x =>
               if x.id == aid then
                 { x with
                   status := .ENDED
                   winnerId := ((orderByAmountDesc (bidsOf st aid)).head?).map
                     (·.userId) }
               else x) },
           { a with
             status := .ENDED
             winnerId := ((orderByAmountDesc (bidsOf st aid)).head?).map
               (·.userId) },
           (match (orderByAmountDesc (bidsOf st aid)).head? with
            | some wb =>
              .won wb.userId ::
                ((dedupFirst ((orderByAmountDesc (bidsOf st aid)).map
                  (·.userId))).filter (fun p => p ≠ wb.userId)).map (.lost ·)
            | none => [.endedNoBids]) ++
             [.auditEnded (((orderByAmountDesc (bidsOf st aid)).head?).map
               (·.userId))]) := by
  unfold endAuction; rw [hfa]; simp [h]

/-- Claim C4: endAuction is idempotent.  If the auction is already
ENDED it returns the current state with no store write and no events;
after any successful endAuction, every further call returns the same
store, the same auction, and emits no events; and the first transition
out of a non-ENDED status emits a non-empty event cluster — so exactly
one cluster is emitted per auction. -/
theorem endAuction_idempotent :
    (∀ (st : Store) (aid : String) (a : Auction),
      findAuction st aid = some a → a.status = .ENDED →
      endAuction st aid = .ok (st, a, [])) ∧
    (∀ (st : Store) (aid : String) (st' : Store) (a : Auction)
        (evs : List NEvent),
      endAuction st aid = .ok (st', a, evs) →
      endAuction st' aid = .ok (st', a, []) ∧
      (∀ a0, findAuction st aid = some a0 → a0.status ≠ .ENDED → evs ≠ [])) := by
  constructor
  · exact fun st aid a hfa h => endAuction_already_ended hfa h
  · intro st aid st' a evs h
    cases hfa : findAuction st aid with
    | none => rw [endAuction_not_found hfa] at h; cases h
    | some a0 =>
      by_cases hst : a0.status = .ENDED
      · rw [endAuction_already_ended hfa hst] at h
        simp only [Except.ok.injEq, Prod.mk.injEq] at h
        obtain ⟨h1, h2, h3⟩ := h
        subst h1; subst h2; subst h3
        refine ⟨endAuction_already_ended hfa hst, ?_⟩
        intro a1 hfa1 hne
        injection hfa1 with h4
        subst h4
        exact absurd hst hne
      · rw [endAuction_transition hfa hst] at h
        simp only [Except.ok.injEq, Prod.mk.injEq] at h
        obtain ⟨h1, h2, h3⟩ := h
        subst h1; subst h2; subst h3
        constructor
        · have hf : ∀ x : Auction,
              ((if x.id == aid then
                 { x with
                   status := AuctionStatus.ENDED
                   winnerId := ((orderByAmountDesc (bidsOf st aid)).head?).map
                     (·.userId) }
               else x) : Auction).id = x.id := by
            intro x; by_cases hx : x.id == aid <;> simp [hx]
          have hfind := findAuction_map st aid _ hf st.bids
          rw [hfa] at hfind
          have haid : (a0.id == aid) = true :=
            @List.find?_some Auction (fun x => x.id == aid) a0 st.auctions hfa
          simp only [haid, if_true, Option.map_some'] at hfind
          exact endAuction_already_ended hfind rfl
        · intro a1 hfa1 hne
          simp

theorem mem_insertByAmountDesc {x b : Bid} {l : List Bid} :
    x ∈ insertByAmountDesc b l ↔ x = b ∨ x ∈ l := by
  induction l with
  | nil => simp [insertByAmountDesc]
  | cons c cs ih =>
    unfold insertByAmountDesc
    by_cases hc : c.amount < b.amount
    · simp [hc]
    · simp [hc, ih]
      tauto

theorem mem_orderByAmountDesc {x : Bid} {l : List Bid} :
    x ∈ orderByAmountDesc l ↔ x ∈ l := by
  induction l with
  | nil => simp [orderByAmountDesc]
  | cons c cs ih =>
    unfold orderByAmountDesc
    rw [mem_insertByAmountDesc]
    simp [ih]

theorem length_insertByAmountDesc (b : Bid) (l : List Bid) :
    (insertByAmountDesc b l).length = l.length + 1 := by
  induction l with
  | nil => rfl
  | cons c cs ih =>
    unfold insertByAmountDesc
    by_cases hc : c.amount < b.amount <;> simp [hc, ih]

theorem length_orderByAmountDesc (l : List Bid) :
    (orderByAmountDesc l).length = l.length := by
  induction l with
  | nil => rfl
  | cons c cs ih =>
    unfold orderByAmountDesc
    rw [length_insertByAmountDesc, ih]
    rfl

theorem orderByAmountDesc_eq_nil_iff {l : List Bid} :
    orderByAmountDesc l = [] ↔ l = [] := by
  constructor
  · intro h
    have := length_orderByAmountDesc l
    rw [h] at this
    exact List.length_eq_zero.mp this.symm
  · rintro rfl; rfl

theorem head_amount_max {l : List Bid} {b : Bid} {rest : List Bid}
    (h : orderByAmountDesc l = b :: rest) : ∀ x ∈ l, x.amount ≤ b.amount := by
  induction l generalizing b rest with
  | nil => cases h
  | cons c cs ih =>
    unfold orderByAmountDesc at h
    cases hcs : orderByAmountDesc cs with
    | nil =>
      rw [hcs] at h
      unfold insertByAmountDesc at h
      injection h with h1 h2
      subst h1
      intro x hx
      rcases List.mem_cons.mp hx with rfl | hx'
      · exact le_refl _
      · have : cs = [] := orderByAmountDesc_eq_nil_iff.mp hcs
        rw [this] at hx'
        cases hx'
    | cons d ds =>
      rw [hcs] at h
      unfold insertByAmountDesc at h
      by_cases hd : d.amount < c.amount
      · rw [if_pos hd] at h
        injection h with h1 h2
        subst h1
        intro x hx
        rcases List.mem_cons.mp hx with rfl | hx'
        · exact le_refl _
        · exact le_of_lt (lt_of_le_of_lt (ih hcs x hx') hd)
      · rw [if_neg hd] at h
        injection h with h1 h2
        subst h1
        intro x hx
        rcases List.mem_cons.mp hx with rfl | hx'
        · exact not_lt.mp hd
        · exact ih hcs x hx'

theorem pairwise_mem_cases {α : Type} {R : α → α → Prop} {l : List α}
    (hp : l.Pairwise R) {a b : α} (ha : a ∈ l) (hb : b ∈ l) :
    a = b ∨ R a b ∨ R b a := by
  induction l with
  | nil => cases ha
  | cons x xs ih =>
    rcases List.pairwise_cons.mp hp with ⟨hx, hxs⟩
    rcases List.mem_cons.mp ha with rfl | ha'
    · rcases List.mem_cons.mp hb with rfl | hb'
      · exact Or.inl rfl
      · exact Or.inr (Or.inl (hx b hb'))
    · rcases List.mem_cons.mp hb with rfl | hb'
      · exact Or.inr (Or.inr (hx a ha'))
      · exact ih hxs ha' hb'

theorem inv_init (t : Nat) : Inv ⟨[], []⟩ t := by
  refine ⟨by simp, by simp, by simp, by simp, by simp, by simp, by simp⟩

theorem inv_create {st : Store} {t : Nat} {id : String} {s e : Nat} {sb : ℚ}
    (fresh : ∀ a ∈ st.auctions, a.id ≠ id) (hi : Inv st t) :
    Inv ⟨newAuction id s e sb :: st.auctions, st.bids⟩ t := by
  obtain ⟨h1, h2, h3, h4, h5, h6, h7⟩ := hi
  refine ⟨?_, ?_, ?_, h4, ?_, h6, ?_⟩
  · rw [List.map_cons]
    refine List.nodup_cons.mpr ⟨?_, h1⟩
    intro hmem
    rcases List.mem_map.mp hmem with ⟨a, ha, haid⟩
    exact fresh a ha haid
  · intro a ha
    rcases List.mem_cons.mp ha with rfl | ha'
    · exact le_refl _
    · exact h2 a ha'
  · intro a ha b hb hba
    rcases List.mem_cons.mp ha with rfl | ha'
    · rcases h5 b hb with ⟨a0, ha0, hba0⟩
      exact absurd (hba0.symm.trans hba) (fresh a0 ha0)
    · exact h3 a ha' b hb hba
  · intro b hb
    rcases h5 b hb with ⟨a0, ha0, hba0⟩
    exact ⟨a0, List.mem_cons_of_mem _ ha0, hba0⟩
  · intro a ha hend
    rcases List.mem_cons.mp ha with rfl | ha'
    · simp [newAuction] at hend
    · exact h7 a ha' hend

theorem inv_placeBid {st st' : Store} {t now : Nat} {aid uid : String}
    {amt : ℚ} {bid : Bid} (hle : t ≤ now)
    (h : placeBid st aid uid amt now = (st', .ok bid)) (hi : Inv st t) :
    Inv st' now := by
  obtain ⟨h1, h2, h3, h4, h5, h6, h7⟩ := hi
  cases hc : bidChecks st aid uid amt now with
  | error e =>
    rw [placeBid_of_checks_error hc] at h
    injection h with h9 h10
    cases h10
  | ok a =>
    rw [placeBid_of_checks_ok' hc] at h
    injection h with h9 h10
    injection h10 with h11
    subst h9
    obtain ⟨hfa, hpos, hact, hmax, hendt, hso⟩ := bidChecks_ok_iff.mp hc
    have hamem : a ∈ st.auctions := List.mem_of_find?_eq_some hfa
    have haid : a.id = aid :=
      eq_of_beq (@List.find?_some Auction (fun x => x.id == aid) a st.auctions hfa)
    have hfid : ∀ x : Auction,
        ((if x.id == aid then { x with currentHighestBid := amt } else x) :
          Auction).id = x.id := by
      intro x; by_cases hx : x.id == aid <;> simp [hx]
    have hfst : ∀ x : Auction,
        ((if x.id == aid then { x with currentHighestBid := amt } else x) :
          Auction).status = x.status := by
      intro x; by_cases hx : x.id == aid <;> simp [hx]
    refine ⟨?_, ?_, ?_, ?_, ?_, ?_, ?_⟩
    · have hids : (st.auctions.map (fun x =>
          if x.id == aid then { x with currentHighestBid := amt } else x)).map
            (·.id) = st.auctions.map (·.id) := by
        rw [List.map_map]
        exact List.map_congr_left (fun x _ => hfid x)
      rw [hids]
      exact h1
    · intro a' ha'
      rcases List.mem_map.mp ha' with ⟨x, hx, rfl⟩
      by_cases hxid : (x.id == aid) = true
      · have hxa : x = a :=
          List.inj_on_of_nodup_map h1 hx hamem (by rw [eq_of_beq hxid, haid])
        subst hxa
        rw [if_pos hxid]
        exact le_of_lt (lt_of_le_of_lt (le_max_left _ _) hmax)
      · rw [if_neg hxid]
        exact h2 x hx
    · intro a' ha' b hb hba
      rcases List.mem_map.mp ha' with ⟨x, hx, rfl⟩
      rcases List.mem_cons.mp hb with rfl | hb'
      · have hxid : (x.id == aid) = true := by
          have : (⟨uid, aid, amt, now⟩ : Bid).auctionId = x.id := by
            rw [hba, hfid x]
          exact beq_iff_eq.mpr (this.symm)
        rw [if_pos hxid]
      · by_cases hxid : (x.id == aid) = true
        · have hxa : x = a :=
            List.inj_on_of_nodup_map h1 hx hamem (by rw [eq_of_beq hxid, haid])
          subst hxa
          rw [if_pos hxid] at hba ⊢
          exact le_of_lt (lt_of_le_of_lt
            (h3 x hamem b hb' hba) (lt_of_le_of_lt (le_max_right _ _) hmax))
        · rw [if_neg hxid] at hba ⊢
          exact h3 x hx b hb' hba
    · intro b hb
      rcases List.mem_cons.mp hb with rfl | hb'
      · exact le_refl _
      · exact le_trans (h4 b hb') hle
    · intro b hb
      rcases List.mem_cons.mp hb with rfl | hb'
      · refine ⟨_, List.mem_map.mpr ⟨a, hamem, rfl⟩, ?_⟩
        rw [hfid a, haid]
      · rcases h5 b hb' with ⟨a0, ha0, hba0⟩
        refine ⟨_, List.mem_map.mpr ⟨a0, ha0, rfl⟩, ?_⟩
        rw [hfid a0]
        exact hba0
    · refine List.pairwise_cons.mpr ⟨?_, h6⟩
      intro bo hbo heq
      have hboa : bo.auctionId = a.id := by
        rw [← heq, haid]
      constructor
      · exact lt_of_le_of_lt (h3 a hamem bo hbo hboa)
          (lt_of_le_of_lt (le_max_right _ _) hmax)
      · exact le_trans (h4 bo hbo) hle
    · intro a' ha' hend
      rcases List.mem_map.mp ha' with ⟨x, hx, rfl⟩
      by_cases hxid : (x.id == aid) = true
      · have hxa : x = a :=
          List.inj_on_of_nodup_map h1 hx hamem (by rw [eq_of_beq hxid, haid])
        subst hxa
        rw [hfst x] at hend
        rw [hact] at hend
        cases hend
      · rw [if_neg hxid] at hend ⊢
        have hxne : x.id ≠ aid := by
          intro hcontra; exact hxid (beq_iff_eq.mpr hcontra)
        have hfilter : bidsOf ⟨st.auctions.map (fun y =>
            if y.id == aid then { y with currentHighestBid := amt } else y),
            (⟨uid, aid, amt, now⟩ : Bid) :: st.bids⟩ x.id = bidsOf st x.id := by
          unfold bidsOf
          simp only [List.filter_cons]
          have : ((⟨uid, aid, amt, now⟩ : Bid).auctionId == x.id) = false := by
            simp only []
            exact beq_eq_false_iff_ne.mpr (fun hcontra => hxne hcontra.symm)
          rw [this]
          simp
        rw [hfilter]
        exact h7 x hx hend

theorem inv_endAuction {st st' : Store} {t : Nat} {aid : String} {a : Auction}
    {evs : List NEvent} (h : endAuction st aid = .ok (st', a, evs))
    (hi : Inv st t) : Inv st' t := by
  cases hfa : findAuction st aid with
  | none => rw [endAuction_not_found hfa] at h; cases h
  | some a0 =>
    by_cases hst : a0.status = .ENDED
    · rw [endAuction_already_ended hfa hst] at h
      simp only [Except.ok.injEq, Prod.mk.injEq] at h
      obtain ⟨h1, h2, h3⟩ := h
      subst h1
      exact hi
    · rw [endAuction_transition hfa hst] at h
      simp only [Except.ok.injEq, Prod.mk.injEq] at h
      obtain ⟨hsteq, h2, h3⟩ := h
      subst hsteq
      obtain ⟨h1, h2', h3', h4, h5, h6, h7⟩ := hi
      have hamem : a0 ∈ st.auctions := List.mem_of_find?_eq_some hfa
      have haid : a0.id = aid :=
        eq_of_beq (@List.find?_some Auction (fun x => x.id == aid) a0
          st.auctions hfa)
      have hgid : ∀ x : Auction,
          ((if x.id == aid then
             { x with
               status := AuctionStatus.ENDED
               winnerId := ((orderByAmountDesc (bidsOf st aid)).head?).map
                 (·.userId) }
           else x) : Auction).id = x.id := by
        intro x; by_cases hx : x.id == aid <;> simp [hx]
      have hgsb : ∀ x : Auction,
          ((if x.id == aid then
             { x with
               status := AuctionStatus.ENDED
               winnerId := ((orderByAmountDesc (bidsOf st aid)).head?).map
                 (·.userId) }
           else x) : Auction).startingBid = x.startingBid := by
        intro x; by_cases hx : x.id == aid <;> simp [hx]
      have hgch : ∀ x : Auction,
          ((if x.id == aid then
             { x with
               status := AuctionStatus.ENDED
               winnerId := ((orderByAmountDesc (bidsOf st aid)).head?).map
                 (·.userId) }
           else x) : Auction).currentHighestBid = x.currentHighestBid := by
        intro x; by_cases hx : x.id == aid <;> simp [hx]
      refine ⟨?_, ?_, ?_, h4, ?_, h6, ?_⟩
      · have hids : (st.auctions.map (fun x =>
            if x.id == aid then
              { x with
                status := AuctionStatus.ENDED
                winnerId := ((orderByAmountDesc (bidsOf st aid)).head?).map
                  (·.userId) }
            else x)).map (·.id) = st.auctions.map (·.id) := by
          rw [List.map_map]
          exact List.map_congr_left (fun x _ => hgid x)
        rw [hids]
        exact h1
      · intro a' ha'
        rcases List.mem_map.mp ha' with ⟨x, hx, rfl⟩
        rw [hgsb x, hgch x]
        exact h2' x hx
      · intro a' ha' b hb hba
        rcases List.mem_map.mp ha' with ⟨x, hx, rfl⟩
        rw [hgid x] at hba
        rw [hgch x]
        exact h3' x hx b hb hba
      · intro b hb
        rcases h5 b hb with ⟨x, hx, hbx⟩
        refine ⟨_, List.mem_map.mpr ⟨x, hx, rfl⟩, ?_⟩
        rw [hgid x]
        exact hbx
      · intro a' ha' hend
        rcases List.mem_map.mp ha' with ⟨x, hx, rfl⟩
        by_cases hxid : (x.id == aid) = true
        · rw [if_pos hxid] at hend ⊢
          have hxaid : x.id = aid := eq_of_beq hxid
          simp only [hxaid]
          rfl
        · rw [if_neg hxid] at hend ⊢
          exact h7 x hx hend

theorem reachable_inv {st : Store} {t : Nat} (hr : Reachable st t) :
    Inv st t := by
  induction hr with
  | init t => exact inv_init t
  | step hr hs ih =>
    cases hs with
    | create fresh => exact inv_create fresh ih
    | placeBid hle h => exact inv_placeBid hle h ih
    | endAuction h => exact inv_endAuction h ih

/-- Claim C2: in every reachable store, currentHighestBid is at least
startingBid for every auction; for any two bids on the same auction an
earlier timestamp implies a strictly smaller amount; and no operation
(create, accepted placeBid, endAuction) ever decreases the
currentHighestBid of an auction. -/
theorem price_monotonic_invariants :
    (∀ (st : Store) (t : Nat), Reachable st t →
      (∀ a ∈ st.auctions, a.startingBid ≤ a.currentHighestBid) ∧
      (∀ b1 ∈ st.bids, ∀ b2 ∈ st.bids, b1.auctionId = b2.auctionId →
        b1.timestamp < b2.timestamp → b1.amount < b2.amount)) ∧
    (∀ (op : Op) (st : Store) (t : Nat) (st' : Store) (t' : Nat),
      Reachable st t → Steps op st t st' t' →
      ∀ a ∈ st.auctions, ∀ a' ∈ st'.auctions, a'.id = a.id →
        a.currentHighestBid ≤ a'.currentHighestBid) := by
  constructor
  · intro st t hr
    obtain ⟨h1, h2, h3, h4, h5, h6, h7⟩ := reachable_inv hr
    refine ⟨h2, ?_⟩
    intro b1 hb1 b2 hb2 hba hts
    rcases pairwise_mem_cases h6 hb1 hb2 with rfl | hR | hR
    · exact absurd hts (lt_irrefl _)
    · exact absurd (hR hba).2 (not_le.mpr hts)
    · exact (hR hba.symm).1
  · intro op st t st' t' hr hs a ha a' ha' hid
    obtain ⟨h1, h2, h3, h4, h5, h6, h7⟩ := reachable_inv hr
    cases hs with
    | create fresh =>
      rcases List.mem_cons.mp ha' with rfl | ha''
      · exact absurd hid.symm (fresh a ha)
      · have hxa : a' = a := List.inj_on_of_nodup_map h1 ha'' ha hid
        rw [hxa]
    | placeBid hle h =>
      rename_i aid uid amt bid
      cases hc : bidChecks st aid uid amt t' with
      | error e =>
        rw [placeBid_of_checks_error hc] at h
        injection h with h9 h10
        cases h10
      | ok a0 =>
        rw [placeBid_of_checks_ok' hc] at h
        injection h with h9 h10
        subst h9
        obtain ⟨hfa, hpos, hact, hmax, hendt, hso⟩ := bidChecks_ok_iff.mp hc
        have ha0mem : a0 ∈ st.auctions := List.mem_of_find?_eq_some hfa
        have ha0id : a0.id = aid :=
          eq_of_beq (@List.find?_some Auction (fun x => x.id == aid) a0
            st.auctions hfa)
        rcases List.mem_map.mp ha' with ⟨x, hx, rfl⟩
        by_cases hxid : (x.id == aid) = true
        · have hxa0 : x = a0 :=
            List.inj_on_of_nodup_map h1 hx ha0mem
              (by rw [eq_of_beq hxid, ha0id])
          have hxa : x = a := by
            refine List.inj_on_of_nodup_map h1 hx ha ?_
            rw [← hid, if_pos hxid]
          rw [if_pos hxid] at ha' ⊢
          rw [← hxa]
          subst hxa0
          exact le_of_lt (lt_of_le_of_lt (le_max_right _ _) hmax)
        · rw [if_neg hxid] at ha' hid ⊢
          have hxa : x = a := List.inj_on_of_nodup_map h1 hx ha hid
          rw [hxa]
    | endAuction h =>
      rename_i aid a1 evs
      cases hfa : findAuction st aid with
      | none => rw [endAuction_not_found hfa] at h; cases h
      | some a0 =>
        by_cases hst : a0.status = .ENDED
        · rw [endAuction_already_ended hfa hst] at h
          simp only [Except.ok.injEq, Prod.mk.injEq] at h
          obtain ⟨hsteq, -, -⟩ := h
          subst hsteq
          have hxa : a' = a := List.inj_on_of_nodup_map h1 ha' ha hid
          rw [hxa]
        · rw [endAuction_transition hfa hst] at h
          simp only [Except.ok.injEq, Prod.mk.injEq] at h
          obtain ⟨hsteq, -, -⟩ := h
          subst hsteq
          rcases List.mem_map.mp ha' with ⟨x, hx, rfl⟩
          by_cases hxid : (x.id == aid) = true
          · rw [if_pos hxid] at hid ⊢
            have hxa : x = a := by
              refine List.inj_on_of_nodup_map h1 hx ha ?_
              simpa using hid
            rw [← hxa]
          · rw [if_neg hxid] at hid ⊢
            have hxa : x = a := List.inj_on_of_nodup_map h1 hx ha hid
            rw [hxa]

/-- Claim C3: in every reachable store, an ENDED auction has a non-null
winnerId iff it has at least one accepted bid, and when it has bids the
winnerId is the userId of the unique maximum-amount bid. -/
theorem winner_correctness (st : Store) (t : Nat) (hr : Reachable st t)
    (a : Auction) (ha : a ∈ st.auctions) (hend : a.status = .ENDED) :
    (a.winnerId ≠ none ↔ bidsOf st a.id ≠ []) ∧
    (bidsOf st a.id ≠ [] → ∃ b ∈ bidsOf st a.id,
      (∀ b' ∈ bidsOf st a.id, b' ≠ b → b'.amount < b.amount) ∧
      a.winnerId = some b.userId) := by
  obtain ⟨h1, h2, h3, h4, h5, h6, h7⟩ := reachable_inv hr
  have hw := h7 a ha hend
  cases hsort : orderByAmountDesc (bidsOf st a.id) with
  | nil =>
    have hnil : bidsOf st a.id = [] := orderByAmountDesc_eq_nil_iff.mp hsort
    rw [hsort] at hw
    simp only [List.head?_nil, Option.map_none'] at hw
    constructor
    · constructor
      · intro hne; exact absurd hw hne
      · intro hne; exact absurd hnil hne
    · intro hne; exact absurd hnil hne
  | cons b rest =>
    have hmemsort : b ∈ orderByAmountDesc (bidsOf st a.id) := by
      rw [hsort]; exact List.mem_cons_self b rest
    have hmem : b ∈ bidsOf st a.id := mem_orderByAmountDesc.mp hmemsort
    have hbne : bidsOf st a.id ≠ [] := by
      intro hcontra
      rw [hcontra] at hsort
      cases hsort
    rw [hsort] at hw
    simp only [List.head?_cons, Option.map_some'] at hw
    refine ⟨⟨fun _ => hbne, fun _ => by rw [hw]; simp⟩, fun _ => ?_⟩
    refine ⟨b, hmem, ?_, hw⟩
    intro b' hb' hne
    have hle : b'.amount ≤ b.amount := head_amount_max hsort b' hb'
    have hb'mem : b' ∈ st.bids := (List.mem_filter.mp hb').1
    have hbmem : b ∈ st.bids := (List.mem_filter.mp hmem).1
    have hba : b.auctionId = a.id := eq_of_beq (List.mem_filter.mp hmem).2
    have hb'a : b'.auctionId = a.id := eq_of_beq (List.mem_filter.mp hb').2
    rcases pairwise_mem_cases h6 hb'mem hbmem with rfl | hR | hR
    · exact absurd rfl hne
    · exact absurd (hR (hb'a.trans hba.symm)).1 (not_lt.mpr hle)
    · exact (hR (hba.trans hb'a.symm)).1

/-- Claim C5 (amended): ENDED is terminal — every operation leaves an
ENDED auction unchanged in the store.  A CANCELLED auction is left
unchanged by createAuction and placeBid, but an explicit endAuction call
on it transitions it to ENDED (setting winnerId from the bids and
leaving currentHighestBid unchanged), so CANCELLED is not terminal under
endAuction. -/
theorem terminal_states (op : Op) (st : Store) (t : Nat) (st' : Store)
    (t' : Nat) (hnd : (st.auctions.map (·.id)).Nodup)
    (hs : Steps op st t st' t') :
    ∀ a ∈ st.auctions,
      (a.status = .ENDED → a ∈ st'.auctions) ∧
      (a.status = .CANCELLED →
        a ∈ st'.auctions ∨
        (op = .endAuction a.id ∧
          ({ a with
             status := .ENDED
             winnerId := ((orderByAmountDesc (bidsOf st a.id)).head?).map
               (·.userId) } : Auction) ∈ st'.auctions)) := by
  intro a ha
  cases hs with
  | create fresh =>
    exact ⟨fun _ => List.mem_cons_of_mem _ ha,
           fun _ => Or.inl (List.mem_cons_of_mem _ ha)⟩
  | placeBid hle h =>
    rename_i aid uid amt bid
    cases hc : bidChecks st aid uid amt t' with
    | error e =>
      rw [placeBid_of_checks_error hc] at h
      injection h with h9 h10
      cases h10
    | ok a0 =>
      rw [placeBid_of_checks_ok' hc] at h
      injection h with h9 h10
      subst h9
      obtain ⟨hfa, -, hact, -, -, -⟩ := bidChecks_ok_iff.mp hc
      have ha0mem : a0 ∈ st.auctions := List.mem_of_find?_eq_some hfa
      have ha0id : a0.id = aid :=
        eq_of_beq (@List.find?_some Auction (fun x => x.id == aid) a0
          st.auctions hfa)
      have hkeep : a.status ≠ .ACTIVE → a ∈ (st.auctions.map (fun x =>
          if x.id == aid then { x with currentHighestBid := amt } else x)) := by
        intro hstat
        have hxid : ¬((a.id == aid) = true) := by
          intro htrue
          have hxa : a = a0 :=
            List.inj_on_of_nodup_map hnd ha ha0mem
              (by rw [eq_of_beq htrue, ha0id])
          rw [hxa] at hstat
          exact hstat hact
        exact List.mem_map.mpr ⟨a, ha, by rw [if_neg hxid]⟩
      constructor
      · intro he
        exact hkeep (by rw [he]; intro hcontra; cases hcontra)
      · intro hcanc
        exact Or.inl (hkeep (by rw [hcanc]; intro hcontra; cases hcontra))
  | endAuction h =>
    rename_i aid a1 evs
    cases hfa : findAuction st aid with
    | none => rw [endAuction_not_found hfa] at h; cases h
    | some a0 =>
      by_cases hst : a0.status = .ENDED
      · rw [endAuction_already_ended hfa hst] at h
        simp only [Except.ok.injEq, Prod.mk.injEq] at h
        obtain ⟨hsteq, -, -⟩ := h
        subst hsteq
        exact ⟨fun _ => ha, fun _ => Or.inl ha⟩
      · rw [endAuction_transition hfa hst] at h
        simp only [Except.ok.injEq, Prod.mk.injEq] at h
        obtain ⟨hsteq, -, -⟩ := h
        subst hsteq
        have ha0mem : a0 ∈ st.auctions := List.mem_of_find?_eq_some hfa
        have ha0id : a0.id = aid :=
          eq_of_beq (@List.find?_some Auction (fun x => x.id == aid) a0
            st.auctions hfa)
        constructor
        · intro he
          have hxid : ¬((a.id == aid) = true) := by
            intro htrue
            have hxa : a = a0 :=
              List.inj_on_of_nodup_map hnd ha ha0mem
                (by rw [eq_of_beq htrue, ha0id])
            rw [hxa] at he
            exact hst he
          exact List.mem_map.mpr ⟨a, ha, by rw [if_neg hxid]⟩
        · intro hcanc
          by_cases hxid : (a.id == aid) = true
          · refine Or.inr ⟨by rw [eq_of_beq hxid], ?_⟩
            refine List.mem_map.mpr ⟨a, ha, ?_⟩
            rw [if_pos hxid, eq_of_beq hxid]
          · exact Or.inl (List.mem_map.mpr ⟨a, ha, by rw [if_neg hxid]⟩)

theorem placeBid_chain :
    placeBid chainStore1 "A1" "U1" 150 50 = (chainStore2, .ok chainBid) := by
  rfl

theorem endAuction_chain :
    endAuction chainStore2 "A1" =
      .ok (chainStore3, chainAuction3, [.won "U1", .auditEnded (some "U1")]) := by
  rfl

theorem reachable_chainStore3 : Reachable chainStore3 50 :=
  Reachable.step
    (Reachable.step
      (Reachable.step (Reachable.init 0)
        (Steps.create (by intro a ha; cases ha)))
      (Steps.placeBid (by omega) placeBid_chain))
    (Steps.endAuction endAuction_chain)

/-- Claim C1 witness: the acceptance characterization applied to a
concrete store where every precondition holds. -/
theorem placeBid_characterization_witness :
    (placeBid demoStore "A1" "U1" 150 50).2.isOk = true :=
  (placeBid_characterization demoStore "A1" "U1" 150 50).1.mpr
    ⟨demoAuction, by rfl, by rfl, by decide, by decide, by decide, by decide,
     by simp [demoStore]⟩

/-- Claim C1 counterexample: with an ACTIVE auction whose endTime is
100, a bid at now = 100 is accepted by the code, although the claim
as stated requires now < endTime for acceptance. -/
theorem placeBid_deadline_counterexample :
    (placeBid demoStore "A1" "U1" 150 100).2.isOk = true ∧
    findAuction demoStore "A1" = some demoAuction ∧
    ¬(100 < demoAuction.endTime) :=
  ⟨by decide, by decide, by decide⟩

/-- Claim C2 witness: the invariant applied to a concrete reachable
store with one ended auction. -/
theorem price_monotonic_invariants_witness :
    Reachable chainStore3 50 ∧
    chainAuction3.startingBid ≤ chainAuction3.currentHighestBid :=
  ⟨reachable_chainStore3,
   (price_monotonic_invariants.1 chainStore3 50 reachable_chainStore3).1
     chainAuction3 (by simp [chainStore3])⟩

/-- Claim C3 witness: winner correctness applied to a concrete
reachable store with one ended auction holding one bid. -/
theorem winner_correctness_witness :
    chainAuction3.winnerId ≠ none ↔ bidsOf chainStore3 "A1" ≠ [] :=
  (winner_correctness chainStore3 50 reachable_chainStore3 chainAuction3
    (by simp [chainStore3]) rfl).1

/-- Claim C4 witness: ending an already ended concrete auction returns
the store unchanged with no events. -/
theorem endAuction_idempotent_witness :
    endAuction chainStore3 "A1" = .ok (chainStore3, chainAuction3, []) :=
  (endAuction_idempotent.2 chainStore2 "A1" chainStore3 chainAuction3
    [.won "U1", .auditEnded (some "U1")] endAuction_chain).1

/-- Claim C5 counterexample: endAuction invoked on a CANCELLED auction
changes its status to ENDED, because the idempotence guard only checks
for ENDED. -/
theorem endAuction_cancelled_counterexample :
    cancelledAuction.status = .CANCELLED ∧
    endAuction cancelledStore "A2" =
      .ok (cancelledStoreAfter, ⟨"A2", .ENDED, 0, 100, 100, 100, none⟩,
        [.endedNoBids, .auditEnded none]) ∧
    (∀ a ∈ cancelledStoreAfter.auctions, a.status ≠ .CANCELLED) :=
  ⟨rfl, by rfl, by decide⟩

/-- Claim C5 witness: an ENDED bystander auction survives an endAuction
step on another auction unchanged. -/
theorem terminal_states_witness :
    (⟨"A9", .ENDED, 0, 10, 5, 5, none⟩ : Auction) ∈ mixedStoreAfter.auctions :=
  ((terminal_states (.endAuction "A2") mixedStore 0 mixedStoreAfter 0
    (by decide) (Steps.endAuction (by rfl)))
    ⟨"A9", .ENDED, 0, 10, 5, 5, none⟩ (by simp [mixedStore])).1 rfl

/-- Claim C7 counterexample: a request with an invalid (negative)
amount is rejected at the normalize step and its rate counter was
incremented, refuting the claim that normalize precedes the gate. -/
theorem gw_normalize_after_gate_counterexample :
    (gwHandlePlaceBid (some demoUser) none 0 (some (-5))).1 = .invalidAmount ∧
    (gwHandlePlaceBid (some demoUser) none 0 (some (-5))).2 = some ⟨1, 30⟩ :=
  ⟨by decide, by decide⟩

/-- Claim C7 witness: the normalize characterization applied past an
admitting gate on a concrete invalid amount. -/
theorem gw_gate_before_normalize_witness :
    ((gwHandlePlaceBid (some demoUser) none 0 (some (-5))).1 = .invalidAmount ↔
      (some (-5 : ℚ) = none ∨ ∃ q, some (-5 : ℚ) = some q ∧ q ≤ 0)) :=
  (gwHandlePlaceBid_gate_before_normalize demoUser none 0 (some (-5))).2.2
    (by decide)

/-- Claim C8 counterexample: on a concrete accepted bid the effect trace
places the cache write, the history append, the EventBus publish and the
pub/sub publish before the commit marker — refuting execution only after
commit — and the EventBus publish precedes the pub/sub publish, the
reverse of the claimed order; moreover a failed cache write appears in
the trace before the commit while the bid is still accepted and
durable. -/
theorem side_effects_pre_commit_counterexample :
    (placeBidFx demoStore "A1" "U1" 150 50 true false false false).2.2 =
      [.bidInsert, .highestUpdate, .cacheWrite false, .historyAppend true,
       .busPublish true, .pubsubPublish true, .commit] ∧
    (placeBidFx demoStore "A1" "U1" 150 50 true false false false).2.1 =
      .ok ⟨"U1", "A1", 150, 50⟩ ∧
    (placeBidFx demoStore "A1" "U1" 150 50 true false false false).1.bids =
      [⟨"U1", "A1", 150, 50⟩] :=
  ⟨by decide, by rfl, by decide⟩

/-- Claim C8 (amended): for a bid that passes validation, the side
effects run inside the store transaction, after the bid insert and
highest-bid update and before commit, in source order: cache write,
history append, EventBus publish, pub/sub publish (EventBus before
pub/sub).  All four are best-effort: each service catches and logs its
own failures, so any combination of side-effect failures leaves the
store, the accepted bid, and the success outcome exactly as in the
failure-free run. -/
theorem placeBid_side_effect_semantics (st : Store) (aid uid : String)
    (amt : ℚ) (now : Nat) (a : Auction)
    (hok : bidChecks st aid uid amt now = .ok a) :
    (∀ f1 f2 f3 f4 : Bool,
      (placeBidFx st aid uid amt now f1 f2 f3 f4).2.2 =
        [.bidInsert, .highestUpdate, .cacheWrite (!f1), .historyAppend (!f2),
         .busPublish (!f3), .pubsubPublish (!f4), .commit]) ∧
    (∀ f1 f2 f3 f4 : Bool,
      (placeBidFx st aid uid amt now f1 f2 f3 f4).1 =
        (placeBidFx st aid uid amt now false false false false).1 ∧
      (placeBidFx st aid uid amt now f1 f2 f3 f4).2.1 =
        (placeBidFx st aid uid amt now false false false false).2.1) ∧
    (placeBidFx st aid uid amt now true true true true).2.1 =
      .ok ⟨uid, aid, amt, now⟩ := by
  refine ⟨?_, ?_, ?_⟩
  · intro f1 f2 f3 f4
    rw [placeBidFx_of_checks_ok f1 f2 f3 f4 hok]
  · intro f1 f2 f3 f4
    rw [placeBidFx_of_checks_ok f1 f2 f3 f4 hok,
      placeBidFx_of_checks_ok false false false false hok]
    exact ⟨rfl, rfl⟩
  · rw [placeBidFx_of_checks_ok true true true true hok]

/-- Claim C8 witness: with every side effect failing on a concrete valid
bid, the store write and the success outcome are identical to the
failure-free run. -/
theorem placeBid_side_effect_semantics_witness :
    (placeBidFx demoStore "A1" "U1" 150 50 true true true true).2.1 =
      .ok ⟨"U1", "A1", 150, 50⟩ :=
  (placeBid_side_effect_semantics demoStore "A1" "U1" 150 50 demoAuction
    (by rfl)).2.2

/-- Claim C9 witness: a rejected bid on a missing auction leaves a
concrete store unchanged. -/
theorem placeBidFx_reject_frame_witness :
    (placeBidFx demoStore "MISSING" "U1" 150 50 false false false false).1 =
      demoStore :=
  placeBidFx_reject_frame demoStore "MISSING" "U1" 150 50 false false false
    false .auctionNotFound (by rfl)

/-- Claim C6 counterexample: a burst straddling two adjacent counter
windows gets 9 requests admitted inside one 30-second window,
refuting the claimed bound of 5. -/
theorem rate_limit_window_counterexample :
    ((runRL none [0, 29, 29, 29, 29, 30, 30, 30, 30, 30]).filter
      (fun x => 29 ≤ x && x < 59)).length = 9 ∧
    ¬(((runRL none [0, 29, 29, 29, 29, 30, 30, 30, 30, 30]).filter
      (fun x => 29 ≤ x && x < 59)).length ≤ 5) :=
  ⟨by decide, by decide⟩

theorem sp_lower {lo : Nat} {A : List Nat} (hsp : Sp lo A) :
    ∀ x ∈ A, lo ≤ x := by
  induction hsp with
  | nil lo => intro x hx; cases hx
  | grp lo w g rest hlow hlen hg hrest ih =>
    intro x hx
    rcases List.mem_append.mp hx with hxg | hxr
    · exact le_trans hlow (hg x hxg).1
    · exact le_trans (by omega) (ih x hxr)

theorem sp_count_le {lo : Nat} {A : List Nat} (hsp : Sp lo A) (s : Nat) :
    ((A.filter (fun x => s ≤ x && x < s + 30)).length ≤ 10) ∧
    (s ≤ lo → (A.filter (fun x => s ≤ x && x < s + 30)).length ≤ 5) := by
  induction hsp with
  | nil lo => simp
  | grp lo w g rest hlow hlen hg hrest ih =>
    rw [List.filter_append, List.length_append]
    have hcg : (g.filter (fun x => s ≤ x && x < s + 30)).length ≤ 5 :=
      le_trans (List.length_filter_le _ g) hlen
    have hrest0 : s ≤ w →
        (rest.filter (fun x => s ≤ x && x < s + 30)).length = 0 := by
      intro hsw
      rw [List.length_eq_zero, List.filter_eq_nil_iff]
      intro x hx
      have hxlo : w + 30 ≤ x := sp_lower hrest x hx
      simp only [Bool.and_eq_true, decide_eq_true_eq, not_and]
      intro _
      omega
    constructor
    · by_cases hsw : s ≤ w
      · rw [hrest0 hsw]
        omega
      · push_neg at hsw
        by_cases hsw30 : s ≤ w + 30
        · have hr5 := ih.2 hsw30
          omega
        · have hg0 : (g.filter (fun x => s ≤ x && x < s + 30)).length = 0 := by
            rw [List.length_eq_zero, List.filter_eq_nil_iff]
            intro x hx
            have := hg x hx
            simp only [Bool.and_eq_true, decide_eq_true_eq, not_and]
            intro h1
            omega
          have hr10 := ih.1
          omega
    · intro hslo
      rw [hrest0 (le_trans hslo hlow)]
      omega

theorem checkRateLimitStep_live {e : RateEntry} {t : Nat}
    (h : t < e.expiresAt) (h1 : 1 ≤ e.count) :
    checkRateLimitStep (some e) t 5 30 =
      (decide (e.count + 1 ≤ 5),
       ⟨e.count + 1, if 10 < e.count + 1 then t + 150 else e.expiresAt⟩) := by
  unfold checkRateLimitStep
  have hne : ¬(e.count + 1 = 1) := by omega
  simp [h, hne]

theorem checkRateLimitStep_reset {e : RateEntry} {t : Nat}
    (h : e.expiresAt ≤ t) :
    checkRateLimitStep (some e) t 5 30 = (true, ⟨1, t + 30⟩) := by
  unfold checkRateLimitStep
  have hnl : ¬(t < e.expiresAt) := not_lt.mpr h
  simp [hnl]

theorem checkRateLimitStep_none (t : Nat) :
    checkRateLimitStep none t 5 30 = (true, ⟨1, t + 30⟩) := by
  unfold checkRateLimitStep
  simp

theorem runRL_cons (s : Option RateEntry) (t : Nat) (ts : List Nat) :
    runRL s (t :: ts) =
      if (checkRateLimitStep s t 5 30).1 then
        t :: runRL (some (checkRateLimitStep s t 5 30).2) ts
      else runRL (some (checkRateLimitStep s t 5 30).2) ts := rfl

theorem runRL_cons_true {s : Option RateEntry} {t : Nat} {ts : List Nat}
    {r : RateEntry} (h : checkRateLimitStep s t 5 30 = (true, r)) :
    runRL s (t :: ts) = t :: runRL (some r) ts := by
  rw [runRL_cons, h]
  simp

theorem runRL_cons_false {s : Option RateEntry} {t : Nat} {ts : List Nat}
    {r : RateEntry} (h : checkRateLimitStep s t 5 30 = (false, r)) :
    runRL s (t :: ts) = runRL (some r) ts := by
  rw [runRL_cons, h]
  simp

theorem runRL_sp_aux (ts : List Nat) :
    ∀ (e : RateEntry) (w lb : Nat) (B g : List Nat),
    ts.Sorted (· ≤ ·) → (∀ x ∈ ts, lb ≤ x) → w ≤ lb → 1 ≤ e.count →
    g.length = min e.count 5 → (∀ x ∈ g, w ≤ x ∧ x < w + 30) →
    w + 30 ≤ e.expiresAt → (e.count ≤ 10 → e.expiresAt = w + 30) →
    (∀ g' rest : List Nat, g'.length ≤ 5 → (∀ x ∈ g', w ≤ x ∧ x < w + 30) →
      Sp (w + 30) rest → Sp 0 (B ++ (g' ++ rest))) →
    Sp 0 (B ++ (g ++ runRL (some e) ts)) := by
  induction ts with
  | nil =>
    intro e w lb B g _ _ _ _ hglen hg _ _ K
    have hg5 : g.length ≤ 5 := by rw [hglen]; exact Nat.min_le_right _ _
    exact K g [] hg5 hg (Sp.nil _)
  | cons t ts ih =>
    intro e w lb B g hsort hlb hwlb hcnt hglen hg hx30 hx10 K
    have hlbt : lb ≤ t := hlb t (List.mem_cons_self _ _)
    have hwt : w ≤ t := le_trans hwlb hlbt
    have hsort' : ts.Sorted (· ≤ ·) := (List.sorted_cons.mp hsort).2
    have hts : ∀ x ∈ ts, t ≤ x := (List.sorted_cons.mp hsort).1
    by_cases hlive : t < e.expiresAt
    · by_cases hadm : e.count + 1 ≤ 5
      · have hdec : decide (e.count + 1 ≤ 5) = true := decide_eq_true hadm
        have hpen : ¬(10 < e.count + 1) := by omega
        have hstep : checkRateLimitStep (some e) t 5 30 =
            (true, ⟨e.count + 1, e.expiresAt⟩) := by
          rw [checkRateLimitStep_live hlive hcnt, hdec, if_neg hpen]
        rw [runRL_cons_true hstep]
        have hx10' : e.expiresAt = w + 30 := hx10 (by omega)
        have htw : t < w + 30 := by rw [hx10'] at hlive; exact hlive
        have hmin1 : min e.count 5 = e.count := Nat.min_eq_left (by omega)
        have hmin2 : min (e.count + 1) 5 = e.count + 1 :=
          Nat.min_eq_left (by omega)
        have happ : B ++ (g ++ (t :: runRL (some ⟨e.count + 1, e.expiresAt⟩) ts)) =
            B ++ ((g ++ [t]) ++ runRL (some ⟨e.count + 1, e.expiresAt⟩) ts) := by
          simp
        rw [happ]
        refine ih ⟨e.count + 1, e.expiresAt⟩ w t B (g ++ [t]) hsort' hts hwt
          (Nat.succ_le_succ (Nat.zero_le _)) ?_ ?_ hx30 (fun _ => hx10') K
        · show (g ++ [t]).length = min (e.count + 1) 5
          rw [List.length_append, hglen, hmin1, hmin2]
          rfl
        · intro x hx
          rcases List.mem_append.mp hx with hxg | hxt
          · exact hg x hxg
          · rcases List.mem_singleton.mp hxt with rfl
            exact ⟨hwt, htw⟩
      · have hdec : decide (e.count + 1 ≤ 5) = false :=
          decide_eq_false hadm
        have hstep : checkRateLimitStep (some e) t 5 30 =
            (false, ⟨e.count + 1,
              if 10 < e.count + 1 then t + 150 else e.expiresAt⟩) := by
          rw [checkRateLimitStep_live hlive hcnt, hdec]
        rw [runRL_cons_false hstep]
        have hmin1 : min e.count 5 = 5 := Nat.min_eq_right (by omega)
        have hmin2 : min (e.count + 1) 5 = 5 := Nat.min_eq_right (by omega)
        refine ih ⟨e.count + 1,
            if 10 < e.count + 1 then t + 150 else e.expiresAt⟩ w t B g hsort'
          hts hwt (Nat.succ_le_succ (Nat.zero_le _))
          (by show g.length = min (e.count + 1) 5; rw [hglen, hmin1, hmin2])
          hg ?_ ?_ K
        · show w + 30 ≤ (if 10 < e.count + 1 then t + 150 else e.expiresAt)
          by_cases hpen : 10 < e.count + 1
          · rw [if_pos hpen]
            omega
          · rw [if_neg hpen]
            exact hx30
        · intro hle10
          have hle10' : e.count + 1 ≤ 10 := hle10
          show (if 10 < e.count + 1 then t + 150 else e.expiresAt) = w + 30
          have hpen : ¬(10 < e.count + 1) := by omega
          rw [if_neg hpen]
          exact hx10 (by omega)
    · push_neg at hlive
      rw [runRL_cons_true (checkRateLimitStep_reset hlive)]
      have hwt30 : w + 30 ≤ t := le_trans hx30 hlive
      have hg5 : g.length ≤ 5 := by rw [hglen]; exact Nat.min_le_right _ _
      have K' : ∀ g' rest : List Nat, g'.length ≤ 5 →
          (∀ x ∈ g', t ≤ x ∧ x < t + 30) → Sp (t + 30) rest →
          Sp 0 ((B ++ g) ++ (g' ++ rest)) := by
        intro g' rest hlen hgb hrest
        have hsp2 : Sp (w + 30) (g' ++ rest) :=
          Sp.grp (w + 30) t g' rest hwt30 hlen hgb hrest
        have := K g (g' ++ rest) hg5 hg hsp2
        simpa [List.append_assoc] using this
      have happ : B ++ (g ++ (t :: runRL (some ⟨1, t + 30⟩) ts)) =
          (B ++ g) ++ ([t] ++ runRL (some ⟨1, t + 30⟩) ts) := by
        simp
      rw [happ]
      refine ih ⟨1, t + 30⟩ t t (B ++ g) [t] hsort' hts (le_refl t)
        (le_refl 1) (by show [t].length = min 1 5; simp) ?_ (le_refl _)
        (fun _ => rfl) K'
      intro x hx
      rcases List.mem_singleton.mp hx with rfl
      exact ⟨le_refl _, by omega⟩

theorem runRL_sp (ts : List Nat) (hsort : ts.Sorted (· ≤ ·)) :
    Sp 0 (runRL none ts) := by
  cases ts with
  | nil => exact Sp.nil 0
  | cons t ts =>
    rw [runRL_cons_true (checkRateLimitStep_none t)]
    have hsort' : ts.Sorted (· ≤ ·) := (List.sorted_cons.mp hsort).2
    have hts : ∀ x ∈ ts, t ≤ x := (List.sorted_cons.mp hsort).1
    have K0 : ∀ g' rest : List Nat, g'.length ≤ 5 →
        (∀ x ∈ g', t ≤ x ∧ x < t + 30) → Sp (t + 30) rest →
        Sp 0 ([] ++ (g' ++ rest)) := by
      intro g' rest hlen hgb hrest
      simpa using Sp.grp 0 t g' rest (Nat.zero_le t) hlen hgb hrest
    have := runRL_sp_aux ts ⟨1, t + 30⟩ t t [] [t] hsort' hts (le_refl t)
      (le_refl 1) (by show [t].length = min 1 5; simp) (by
        intro x hx
        rcases List.mem_singleton.mp hx with rfl
        exact ⟨le_refl _, by omega⟩) (le_refl _) (fun _ => rfl) K0
    simpa using this

theorem runRLAvail_all_available :
    ∀ (s : Option RateEntry) (ts : List Nat),
      runRLAvail s (ts.map (fun t => (t, true))) = runRL s ts := by
  intro s ts
  induction ts generalizing s with
  | nil => rfl
  | cons t ts ih =>
    simp only [List.map_cons]
    rw [runRL_cons]
    cases hb : (checkRateLimitStep s t 5 30).1 <;>
      simp [runRLAvail, hb, ih]

/-- Claim C6 (amended): with the store reachable, the fixed-window
counter admits at most 10 requests of one (userId, auctionId) pair in
any 30-second window (at most 5 per counter window, and a window of
length 30 can straddle two counter windows); a request arriving while
the store is unreachable is admitted without touching the counter
(fail open); traces in which the store is always reachable coincide
with the plain counter model. -/
theorem rate_limit_window_bound :
    (∀ (ts : List Nat), ts.Sorted (· ≤ ·) → ∀ s : Nat,
      ((runRL none ts).filter (fun x => s ≤ x && x < s + 30)).length ≤ 10) ∧
    (∀ (s : Option RateEntry) (t : Nat) (ts : List (Nat × Bool)),
      runRLAvail s ((t, false) :: ts) = t :: runRLAvail s ts) ∧
    (∀ (s : Option RateEntry) (ts : List Nat),
      runRLAvail s (ts.map (fun t => (t, true))) = runRL s ts) :=
  ⟨fun ts hsort s => (sp_count_le (runRL_sp ts hsort) s).1,
   fun _ _ _ => rfl,
   runRLAvail_all_available⟩

/-- Claim C6 witness: the window bound applied to a concrete sorted
trace. -/
theorem rate_limit_window_bound_witness :
    ((runRL none [0, 29, 30]).filter
      (fun x => 29 ≤ x && x < 29 + 30)).length ≤ 10 :=
  rate_limit_window_bound.1 [0, 29, 30] (by decide) 29

end CarAuction
